import Mathlib

/-!
Verification development for `src/filters/page_layout/Settings.cpp` of the
scantailor repository: the per-page layout settings store
(`page_layout::Settings::Impl`), a keyed collection of `Item` records with
two continuously maintained descending orders over the derived scalars
`hardWidthMM` and `hardHeightMM` (a boost `multi_index_container` with an
`ordered_unique` index on `pageId` and two `ordered_non_unique` indices).

Embedding choices:
* physical-length scalars (C++ `double`) are modelled as `ℚ`;
* `PageId` (opaque, totally ordered, with a default-constructed null
  sentinel; its header is not among the sources) is modelled as `Nat`
  with sentinel `0`;
* the container is modelled as three lists over the same items: the keyed
  ascending order `byId` and the two descending orders `descWidth` and
  `descHeight`.  boost inserts a new element into an `ordered_non_unique`
  index at the end of its range of equivalent elements, and `modify`
  leaves an element in place whenever the index order still holds,
  otherwise re-inserting it; `insertDescUpper` and `repositionDesc` below
  mirror exactly that;
* every operation is a pure function of the container; the C++ mutex
  only serializes calls and has no sequential semantics.
-/

namespace PageLayout

/-- Modelled from the spec: `PageId.h` is not among the sources.  The spec
requires only a totally ordered, equality-comparable key type with a
null/default sentinel (`PageId()`), modelled as `Nat` with sentinel `0`. -/
abbrev PageId := Nat

/-- The null/default `PageId()` sentinel returned by the extremal queries
on an empty store. -/
def nullPageId : PageId := 0

/-- Qt value type `QSizeF`: a (width, height) pair of scalars. -/
structure QSizeF where
  width : ℚ
  height : ℚ
deriving DecidableEq, Repr

/-- Qt value type `QRectF`, opaque geometry to this core; a
default-constructed `QRectF()` is the zero rectangle. -/
structure QRectF where
  x : ℚ
  y : ℚ
  w : ℚ
  h : ℚ
deriving DecidableEq, Repr

/-- Modelled from the spec: `Margins.h` is not among the sources.  Four
scalars; the constructor argument order `(left, top, right, bottom)` is
fixed by matching the call `Margins(10.0, 5.0, 10.0, 5.0)` in
`Settings::Impl::Impl()` against the spec's default margins
`{left:10, right:10, top:5, bottom:5}`. -/
structure Margins where
  left : ℚ
  top : ℚ
  right : ℚ
  bottom : ℚ
deriving DecidableEq, Repr

/-- Modelled from the spec: `Alignment.h` is not among the sources.
Vertical alignment choice. -/
inductive AlignVert where
  | TOP
  | VCENTER
  | BOTTOM
deriving DecidableEq, Repr

/-- Modelled from the spec: horizontal alignment choice. -/
inductive AlignHor where
  | LEFT
  | HCENTER
  | RIGHT
deriving DecidableEq, Repr

/-- Modelled from the spec: a two-axis alignment pair, opaque to this core
beyond storage and retrieval; constructor order `(vertical, horizontal)`
as in `Alignment(Alignment::VCENTER, Alignment::HCENTER)`. -/
structure Alignment where
  vert : AlignVert
  hor : AlignHor
deriving DecidableEq, Repr

/-- `Settings::Item`: one entry of the store. -/
structure Item where
  pageId : PageId
  hardMarginsMM : Margins
  contentRect : QRectF
  contentSizeMM : QSizeF
  alignment : Alignment
deriving DecidableEq, Repr

/-- `Settings::Item::hardWidthMM()`:
`contentSizeMM.width() + hardMarginsMM.left() + hardMarginsMM.right()`. -/
def Item.hardWidthMM (i : Item) : ℚ :=
  i.contentSizeMM.width + i.hardMarginsMM.left + i.hardMarginsMM.right

/-- `Settings::Item::hardHeightMM()`:
`contentSizeMM.height() + hardMarginsMM.top() + hardMarginsMM.bottom()`. -/
def Item.hardHeightMM (i : Item) : ℚ :=
  i.contentSizeMM.height + i.hardMarginsMM.top + i.hardMarginsMM.bottom

/-- Modelled from the spec: `Params.h` is not among the sources.  The
parameter bundle returned by `getPageParams`, built in field order
`Params(hardMarginsMM, contentRect, contentSizeMM, alignment)`. -/
structure Params where
  hardMarginsMM : Margins
  contentRect : QRectF
  contentSizeMM : QSizeF
  alignment : Alignment
deriving DecidableEq, Repr

/-- `m_zeroSize`: `QSizeF(0.0, 0.0)`. -/
def m_zeroSize : QSizeF := ⟨0, 0⟩

/-- `m_defaultHardMarginsMM`: `Margins(10.0, 5.0, 10.0, 5.0)`,
i.e. left 10, top 5, right 10, bottom 5. -/
def m_defaultHardMarginsMM : Margins := ⟨10, 5, 10, 5⟩

/-- `m_defaultAlignment`: `Alignment(Alignment::VCENTER, Alignment::HCENTER)`. -/
def m_defaultAlignment : Alignment := ⟨AlignVert.VCENTER, AlignHor.HCENTER⟩

/-- The `multi_index_container` of `Settings::Impl`, modelled as three
list views over the same items: the `ordered_unique` index on `pageId`
(`byId`, strictly ascending on reachable states) and the two
`ordered_non_unique` descending indices (`descWidth` on `hardWidthMM`,
`descHeight` on `hardHeightMM`). -/
structure Container where
  byId : List Item
  descWidth : List Item
  descHeight : List Item
deriving DecidableEq, Repr

/-- The freshly constructed store of `Settings::Impl::Impl()`: empty. -/
def initImpl : Container := ⟨[], [], []⟩

/-- Lookup in the `ordered_unique` index: `m_items.find(page_id)`. -/
def findById (c : Container) (k : PageId) : Option Item :=
  c.byId.find? (fun i => i.pageId == k)

/-- Insertion into the ascending unique index on `pageId` (the element
is new: the C++ insert path runs only when `lower_bound` shows the key
absent). -/
def insertById (x : Item) : List Item → List Item
  | [] => [x]
  | y :: ys => if y.pageId < x.pageId then y :: insertById x ys else x :: y :: ys

/-- Insertion into a descending `ordered_non_unique` index with
comparator `std::greater<double>`: boost places a new element at the end
of its range of equivalent elements, i.e. after every element whose key
is greater than or equal to the new key. -/
def insertDescUpper (f : Item → ℚ) (x : Item) : List Item → List Item
  | [] => [x]
  | y :: ys => if f x ≤ f y then y :: insertDescUpper f x ys else x :: y :: ys

/-- Replace the fields of the item keyed `k` (boost `modify` updates the
node that all index views share). -/
def updItem (k : PageId) (g : Item → Item) (l : List Item) : List Item :=
  l.map (fun i => if i.pageId = k then g i else i)

/-- Remove the item keyed `k` from an index view. -/
def removeById (k : PageId) (l : List Item) : List Item :=
  l.filter (fun i => i.pageId != k)

/-- One descending index view after a boost `modify` of the item keyed
`k`: the fields are updated in place; if the view is still ordered the
element keeps its position, otherwise it is extracted and re-inserted at
the end of its new range of equivalent elements. -/
def repositionDesc (f : Item → ℚ) (k : PageId) (g : Item → Item)
    (l : List Item) : List Item :=
  let l' := updItem k g l
  if List.Chain' (fun a b => f b ≤ f a) l' then l'
  else
    match l'.find? (fun i => i.pageId == k) with
    | none => l'
    | some x => insertDescUpper f x (removeById k l')

/-- `m_items.insert(it, item)` for a fresh key: the element enters all
three index views. -/
def Container.insertItem (c : Container) (x : Item) : Container :=
  ⟨insertById x c.byId,
   insertDescUpper Item.hardWidthMM x c.descWidth,
   insertDescUpper Item.hardHeightMM x c.descHeight⟩

/-- `m_items.modify(it, ...)` for a present key `k`: the shared node is
updated and each descending view repositions it as needed. -/
def Container.modifyItem (c : Container) (k : PageId) (g : Item → Item) :
    Container :=
  ⟨updItem k g c.byId,
   repositionDesc Item.hardWidthMM k g c.descWidth,
   repositionDesc Item.hardHeightMM k g c.descHeight⟩

/-- `Settings::Impl::getPageParams`: a copy of the entry's fields, or
empty (`std::auto_ptr<Params>()`) if the key is absent. -/
def getPageParams (c : Container) (k : PageId) : Option Params :=
  (findById c k).map
    (fun i => ⟨i.hardMarginsMM, i.contentRect, i.contentSizeMM, i.alignment⟩)

/-- `Settings::Impl::getHardMarginsMM`: stored margins, or
`m_defaultHardMarginsMM` if the key is absent. -/
def getHardMarginsMM (c : Container) (k : PageId) : Margins :=
  match findById c k with
  | none => m_defaultHardMarginsMM
  | some i => i.hardMarginsMM

/-- `Settings::Impl::setHardMarginsMM`: upsert.  The C++ decides between
the insert and the modify path by `lower_bound(page_id)` followed by
`it == end || page_id < it->pageId`, which on the ordered unique index is
exactly the absence test for `page_id`. -/
def setHardMarginsMM (c : Container) (k : PageId) (m : Margins) : Container :=
  match findById c k with
  | none => c.insertItem ⟨k, m, QRectF.mk 0 0 0 0, m_zeroSize, m_defaultAlignment⟩
  | some _ => c.modifyItem k (fun i => { i with hardMarginsMM := m })

/-- `Settings::Impl::getPageAlignment`: stored alignment, or
`m_defaultAlignment` if the key is absent. -/
def getPageAlignment (c : Container) (k : PageId) : Alignment :=
  match findById c k with
  | none => m_defaultAlignment
  | some i => i.alignment

/-- `Settings::Impl::setPageAlignment`: upsert, mirror image of
`setHardMarginsMM` affecting only the alignment field. -/
def setPageAlignment (c : Container) (k : PageId) (a : Alignment) : Container :=
  match findById c k with
  | none => c.insertItem ⟨k, m_defaultHardMarginsMM, QRectF.mk 0 0 0 0, m_zeroSize, a⟩
  | some _ => c.modifyItem k (fun i => { i with alignment := a })

/-- `Settings::Impl::setContentZone`: on the insert path the new entry
carries both `content_rect` and `content_size_mm`; on the modify path the
functor `ModifyContentSize` assigns only `contentSizeMM`. -/
def setContentZone (c : Container) (k : PageId) (r : QRectF) (s : QSizeF) :
    Container :=
  match findById c k with
  | none => c.insertItem ⟨k, m_defaultHardMarginsMM, r, s, m_defaultAlignment⟩
  | some _ => c.modifyItem k (fun i => { i with contentSizeMM := s })

/-- The derived scalar of the front element of an index view
(`*order.begin()`; `0` for the empty view, which the callers below guard
against via the `m_items.empty()` test). -/
def frontVal (f : Item → ℚ) : List Item → ℚ
  | [] => 0
  | x :: _ => f x

/-- `Settings::Impl::getAggregateHardSizeMM()`: `(0,0)` on the empty
store, otherwise the hard width of the front of the width order paired
with the hard height of the front of the height order. -/
def getAggregateHardSizeMM (c : Container) : QSizeF :=
  if c.byId.isEmpty then ⟨0, 0⟩
  else ⟨frontVal Item.hardWidthMM c.descWidth,
        frontVal Item.hardHeightMM c.descHeight⟩

/-- The what-if overload
`Settings::Impl::getAggregateHardSizeMM(PageId, QSizeF)`: per axis, if the
front of the order is not `page_id` its value is the answer; otherwise the
next element (if any) competes with the corresponding component of
`hard_size_mm`, which is used directly as the hypothetical hard size. -/
def getAggregateHardSizeMM' (c : Container) (k : PageId) (hardSizeMM : QSizeF) :
    QSizeF :=
  if c.byId.isEmpty then ⟨0, 0⟩
  else
    let width :=
      match c.descWidth with
      | [] => 0
      | x :: rest =>
        if x.pageId ≠ k then x.hardWidthMM
        else
          match rest with
          | [] => hardSizeMM.width
          | y :: _ => max hardSizeMM.width y.hardWidthMM
    let height :=
      match c.descHeight with
      | [] => 0
      | x :: rest =>
        if x.pageId ≠ k then x.hardHeightMM
        else
          match rest with
          | [] => hardSizeMM.height
          | y :: _ => max hardSizeMM.height y.hardHeightMM
    ⟨width, height⟩

/-- `Settings::Impl::findWidestPage`: the key at the front of the width
order, or the null `PageId()` on the empty store. -/
def findWidestPage (c : Container) : PageId :=
  if c.byId.isEmpty then nullPageId
  else
    match c.descWidth with
    | [] => nullPageId
    | x :: _ => x.pageId

/-- `Settings::Impl::findTallestPage`: the key at the front of the height
order, or the null `PageId()` on the empty store. -/
def findTallestPage (c : Container) : PageId :=
  if c.byId.isEmpty then nullPageId
  else
    match c.descHeight with
    | [] => nullPageId
    | x :: _ => x.pageId

/-- One mutating call of the public interface. -/
inductive Op where
  | margins (k : PageId) (m : Margins)
  | align (k : PageId) (a : Alignment)
  | zone (k : PageId) (r : QRectF) (s : QSizeF)
deriving DecidableEq, Repr

/-- The key an operation writes to. -/
def Op.key : Op → PageId
  | .margins k _ => k
  | .align k _ => k
  | .zone k _ _ => k

/-- Apply one mutating call. -/
def step (c : Container) : Op → Container
  | .margins k m => setHardMarginsMM c k m
  | .align k a => setPageAlignment c k a
  | .zone k r s => setContentZone c k r s

/-- Apply a sequence of mutating calls; `applyOps initImpl ops` ranges
over exactly the reachable store states. -/
def applyOps (c : Container) (ops : List Op) : Container :=
  ops.foldl step c

/-- The reference brute-force linear scan of the spec's aggregate
property: the maximum of a derived scalar over a list of entries
(`0` on the empty list, which the aggregate queries never consult). -/
def maxOver (f : Item → ℚ) : List Item → ℚ
  | [] => 0
  | [x] => f x
  | x :: y :: ys => max (f x) (maxOver f (y :: ys))

/-! ### Basic lemmas about the index-view operations -/

/-- The descending order relation maintained by a non-unique index. -/
def descRel (f : Item → ℚ) (a b : Item) : Prop := f b ≤ f a

/-- The strict ascending key order of the unique index. -/
def idLt (a b : Item) : Prop := a.pageId < b.pageId

theorem perm_insertById (x : Item) (l : List Item) :
    (insertById x l).Perm (x :: l) := by
  induction l with
  | nil => simp [insertById]
  | cons y ys ih =>
    by_cases h : y.pageId < x.pageId
    · simp only [insertById, if_pos h]
      exact (ih.cons y).trans (List.Perm.swap x y ys)
    · simp [insertById, if_neg h]

theorem perm_insertDescUpper (f : Item → ℚ) (x : Item) (l : List Item) :
    (insertDescUpper f x l).Perm (x :: l) := by
  induction l with
  | nil => simp [insertDescUpper]
  | cons y ys ih =>
    by_cases h : f x ≤ f y
    · simp only [insertDescUpper, if_pos h]
      exact (ih.cons y).trans (List.Perm.swap x y ys)
    · simp [insertDescUpper, if_neg h]

theorem pairwise_insertDescUpper (f : Item → ℚ) (x : Item) (l : List Item)
    (hl : l.Pairwise (descRel f)) :
    (insertDescUpper f x l).Pairwise (descRel f) := by
  induction l with
  | nil => simp [insertDescUpper, descRel]
  | cons y ys ih =>
    rcases List.pairwise_cons.mp hl with ⟨hy, hys⟩
    by_cases h : f x ≤ f y
    · simp only [insertDescUpper, if_pos h]
      refine List.pairwise_cons.mpr ⟨?_, ih hys⟩
      intro a ha
      rcases List.mem_cons.mp ((perm_insertDescUpper f x ys).mem_iff.mp ha) with
        rfl | hmem
      · exact h
      · exact hy a hmem
    · simp only [insertDescUpper, if_neg h]
      have hyx : f y ≤ f x := le_of_not_le h
      refine List.pairwise_cons.mpr ⟨?_, hl⟩
      intro a ha
      rcases List.mem_cons.mp ha with rfl | hmem
      · exact hyx
      · exact le_trans (hy a hmem) hyx

theorem pairwise_insertById (x : Item) (l : List Item)
    (hl : l.Pairwise idLt) (habs : ∀ i ∈ l, i.pageId ≠ x.pageId) :
    (insertById x l).Pairwise idLt := by
  induction l with
  | nil => simp [insertById, idLt]
  | cons y ys ih =>
    rcases List.pairwise_cons.mp hl with ⟨hy, hys⟩
    by_cases h : y.pageId < x.pageId
    · simp only [insertById, if_pos h]
      refine List.pairwise_cons.mpr
        ⟨?_, ih hys (fun i hi => habs i (List.mem_cons_of_mem y hi))⟩
      intro a ha
      rcases List.mem_cons.mp ((perm_insertById x ys).mem_iff.mp ha) with
        rfl | hmem
      · exact h
      · exact hy a hmem
    · simp only [insertById, if_neg h]
      have hxy : x.pageId < y.pageId :=
        lt_of_le_of_ne (Nat.le_of_not_lt h)
          (Ne.symm (habs y (List.mem_cons_self y ys)))
      refine List.pairwise_cons.mpr ⟨?_, hl⟩
      intro a ha
      rcases List.mem_cons.mp ha with rfl | hmem
      · exact hxy
      · exact lt_trans hxy (hy a hmem)

theorem insertById_ne_nil (x : Item) (l : List Item) : insertById x l ≠ [] := by
  cases l with
  | nil => simp [insertById]
  | cons y ys =>
    simp only [insertById]
    split <;> simp

/-- A field update of boost `modify` never changes the key. -/
def PreservesId (g : Item → Item) : Prop := ∀ i, (g i).pageId = i.pageId

theorem updItem_pageId (k : PageId) (g : Item → Item) (hg : PreservesId g)
    (i : Item) : (if i.pageId = k then g i else i).pageId = i.pageId := by
  split
  · exact hg i
  · rfl

theorem map_pageId_updItem (k : PageId) (g : Item → Item) (hg : PreservesId g)
    (l : List Item) :
    (updItem k g l).map Item.pageId = l.map Item.pageId := by
  unfold updItem
  rw [List.map_map]
  exact List.map_congr_left (fun i _ => updItem_pageId k g hg i)

theorem pairwise_idLt_updItem (k : PageId) (g : Item → Item)
    (hg : PreservesId g) (l : List Item) (hl : l.Pairwise idLt) :
    (updItem k g l).Pairwise idLt := by
  unfold updItem
  refine List.Pairwise.map _ ?_ hl
  intro a b hab
  unfold idLt at hab ⊢
  rw [updItem_pageId k g hg a, updItem_pageId k g hg b]
  exact hab

theorem removeById_updItem (k : PageId) (g : Item → Item) (hg : PreservesId g)
    (l : List Item) :
    removeById k (updItem k g l) = removeById k l := by
  induction l with
  | nil => rfl
  | cons i t ih =>
    simp only [updItem, removeById, List.map_cons, List.filter_cons] at *
    by_cases hik : i.pageId = k
    · rw [if_pos hik]
      have h1 : ((g i).pageId != k) = false := by
        simp [hg i, hik]
      have h2 : (i.pageId != k) = false := by simp [hik]
      rw [h1, h2]
      simp only [Bool.false_eq_true, if_false]
      exact ih
    · rw [if_neg hik]
      have h2 : (i.pageId != k) = true := by simp [hik]
      rw [h2]
      simp only [if_true]
      rw [ih]

theorem find?_map_pred (h : Item → Item) (p : Item → Bool)
    (hp : ∀ x, p (h x) = p x) (l : List Item) :
    (l.map h).find? p = (l.find? p).map h := by
  induction l with
  | nil => rfl
  | cons x t ih =>
    by_cases hx : p x = true
    · rw [List.map_cons, List.find?_cons_of_pos _ (by rw [hp]; exact hx),
        List.find?_cons_of_pos _ hx]
      rfl
    · rw [List.map_cons, List.find?_cons_of_neg _ (by rw [hp]; exact hx),
        List.find?_cons_of_neg _ hx, ih]

theorem updItem_eq_self (k : PageId) (g : Item → Item) (l : List Item)
    (h : ∀ i ∈ l, i.pageId = k → g i = i) : updItem k g l = l := by
  unfold updItem
  have : ∀ i ∈ l, (if i.pageId = k then g i else i) = id i := by
    intro i hi
    split
    · exact h i hi (by assumption)
    · rfl
  rw [List.map_congr_left this, List.map_id]

theorem perm_cons_removeById (k : PageId) (x : Item) (l : List Item)
    (hnd : (l.map Item.pageId).Nodup)
    (hfind : l.find? (fun i => i.pageId == k) = some x) :
    l.Perm (x :: removeById k l) := by
  induction l with
  | nil => simp at hfind
  | cons y t ih =>
    rw [List.map_cons, List.nodup_cons] at hnd
    by_cases hy : y.pageId = k
    · rw [List.find?_cons_of_pos _ (by simp [hy])] at hfind
      have hxy : y = x := by injection hfind
      subst hxy
      have ht : removeById k (y :: t) = removeById k t := by
        simp [removeById, List.filter_cons, hy]
      have htt : removeById k t = t := by
        unfold removeById
        rw [List.filter_eq_self]
        intro i hi
        have : i.pageId ≠ k := by
          intro hik
          have hmem : i.pageId ∈ t.map Item.pageId :=
            List.mem_map_of_mem Item.pageId hi
          rw [hik, ← hy] at hmem
          exact hnd.1 hmem
        simp [this]
      rw [ht, htt]
    · rw [List.find?_cons_of_neg _ (by simp [hy])] at hfind
      have hperm := ih hnd.2 hfind
      have hrem : removeById k (y :: t) = y :: removeById k t := by
        simp [removeById, List.filter_cons, hy]
      rw [hrem]
      exact (hperm.cons y).trans (List.Perm.swap x y (removeById k t))

/-! ### The reposition step of boost `modify` -/

theorem perm_repositionDesc (f : Item → ℚ) (k : PageId) (g : Item → Item)
    (l : List Item) (hg : PreservesId g) (hnd : (l.map Item.pageId).Nodup) :
    (repositionDesc f k g l).Perm (updItem k g l) := by
  simp only [repositionDesc]
  split
  · exact List.Perm.refl _
  · cases hfind : (updItem k g l).find? (fun i => i.pageId == k) with
    | none => exact List.Perm.refl _
    | some x =>
      have hnd' : ((updItem k g l).map Item.pageId).Nodup := by
        rw [map_pageId_updItem k g hg]
        exact hnd
      exact (perm_insertDescUpper f x _).trans
        (perm_cons_removeById k x _ hnd' hfind).symm

theorem pairwise_repositionDesc (f : Item → ℚ) (k : PageId) (g : Item → Item)
    (l : List Item) (hg : PreservesId g) (hl : l.Pairwise (descRel f))
    (_hnd : (l.map Item.pageId).Nodup) :
    (repositionDesc f k g l).Pairwise (descRel f) := by
  have htrans : IsTrans Item (descRel f) :=
    ⟨fun a b c hab hbc => le_trans hbc hab⟩
  simp only [repositionDesc]
  split
  next h => exact (@List.chain'_iff_pairwise _ _ htrans _).mp h
  next h =>
    cases hfind : (updItem k g l).find? (fun i => i.pageId == k) with
    | none =>
      exfalso
      apply h
      have habs : ∀ i ∈ l, ¬ i.pageId = k := by
        intro i hi hik
        have hmem : (if i.pageId = k then g i else i) ∈ updItem k g l :=
          List.mem_map_of_mem _ hi
        apply List.find?_eq_none.mp hfind _ hmem
        simp [hik, hg i]
      have heq : updItem k g l = l := by
        unfold updItem
        have hid : ∀ i ∈ l, (if i.pageId = k then g i else i) = id i := by
          intro i hi
          rw [if_neg (habs i hi)]
          rfl
        rw [List.map_congr_left hid, List.map_id]
      rw [heq]
      exact (@List.chain'_iff_pairwise _ _ htrans _).mpr hl
    | some x =>
      show (insertDescUpper f x (removeById k (updItem k g l))).Pairwise
        (descRel f)
      rw [removeById_updItem k g hg]
      exact pairwise_insertDescUpper f x _
        (List.Pairwise.sublist (List.filter_sublist l) hl)

/-! ### The invariant of reachable container states -/

/-- Well-formedness of a container state: the unique index is strictly
ascending on keys, each descending index holds exactly the same items,
and each descending index is ordered by its derived scalar. -/
def WF (c : Container) : Prop :=
  c.byId.Pairwise idLt ∧
  c.descWidth.Perm c.byId ∧
  c.descHeight.Perm c.byId ∧
  c.descWidth.Pairwise (descRel Item.hardWidthMM) ∧
  c.descHeight.Pairwise (descRel Item.hardHeightMM)

theorem nodup_keys_of_pairwise_idLt (l : List Item) (hl : l.Pairwise idLt) :
    (l.map Item.pageId).Nodup :=
  List.pairwise_map.mpr (hl.imp fun h => Nat.ne_of_lt h)

theorem wf_insertItem (c : Container) (x : Item) (hwf : WF c)
    (habs : ∀ i ∈ c.byId, i.pageId ≠ x.pageId) : WF (c.insertItem x) := by
  obtain ⟨h1, h2, h3, h4, h5⟩ := hwf
  exact ⟨pairwise_insertById x c.byId h1 habs,
    (perm_insertDescUpper _ x _).trans
      ((h2.cons x).trans (perm_insertById x c.byId).symm),
    (perm_insertDescUpper _ x _).trans
      ((h3.cons x).trans (perm_insertById x c.byId).symm),
    pairwise_insertDescUpper _ x _ h4,
    pairwise_insertDescUpper _ x _ h5⟩

theorem wf_modifyItem (c : Container) (k : PageId) (g : Item → Item)
    (hwf : WF c) (hg : PreservesId g) : WF (c.modifyItem k g) := by
  obtain ⟨h1, h2, h3, h4, h5⟩ := hwf
  have hndI : (c.byId.map Item.pageId).Nodup := nodup_keys_of_pairwise_idLt _ h1
  have hndW : (c.descWidth.map Item.pageId).Nodup :=
    ((h2.map Item.pageId).symm).nodup hndI
  have hndH : (c.descHeight.map Item.pageId).Nodup :=
    ((h3.map Item.pageId).symm).nodup hndI
  exact ⟨pairwise_idLt_updItem k g hg _ h1,
    (perm_repositionDesc _ k g _ hg hndW).trans (h2.map _),
    (perm_repositionDesc _ k g _ hg hndH).trans (h3.map _),
    pairwise_repositionDesc _ k g _ hg h4 hndW,
    pairwise_repositionDesc _ k g _ hg h5 hndH⟩

theorem absent_of_findById_none (c : Container) (k : PageId)
    (hnone : findById c k = none) : ∀ i ∈ c.byId, i.pageId ≠ k := by
  intro i hi
  have := List.find?_eq_none.mp hnone i hi
  simpa using this

theorem wf_step (c : Container) (op : Op) (hwf : WF c) : WF (step c op) := by
  cases op with
  | margins k m =>
    simp only [step, setHardMarginsMM]
    cases hfind : findById c k with
    | none => exact wf_insertItem c _ hwf (absent_of_findById_none c k hfind)
    | some i => exact wf_modifyItem c k _ hwf (fun j => rfl)
  | align k a =>
    simp only [step, setPageAlignment]
    cases hfind : findById c k with
    | none => exact wf_insertItem c _ hwf (absent_of_findById_none c k hfind)
    | some i => exact wf_modifyItem c k _ hwf (fun j => rfl)
  | zone k r s =>
    simp only [step, setContentZone]
    cases hfind : findById c k with
    | none => exact wf_insertItem c _ hwf (absent_of_findById_none c k hfind)
    | some i => exact wf_modifyItem c k _ hwf (fun j => rfl)

theorem wf_initImpl : WF initImpl :=
  ⟨List.Pairwise.nil, List.Perm.nil, List.Perm.nil,
   List.Pairwise.nil, List.Pairwise.nil⟩

theorem wf_applyOps (ops : List Op) (c : Container) (hwf : WF c) :
    WF (applyOps c ops) := by
  induction ops generalizing c with
  | nil => exact hwf
  | cons op t ih => exact ih (step c op) (wf_step c op hwf)

theorem wf_reachable (ops : List Op) : WF (applyOps initImpl ops) :=
  wf_applyOps ops initImpl wf_initImpl

/-! ### Lemmas about the reference linear scan -/

theorem le_maxOver_of_mem (f : Item → ℚ) (l : List Item) (i : Item)
    (hi : i ∈ l) : f i ≤ maxOver f l := by
  induction l with
  | nil => cases hi
  | cons x t ih =>
    cases t with
    | nil =>
      rcases List.mem_cons.mp hi with rfl | h
      · exact le_refl _
      · cases h
    | cons y ys =>
      rcases List.mem_cons.mp hi with rfl | h
      · exact le_max_left _ _
      · exact le_trans (ih h) (le_max_right _ _)

theorem maxOver_attained (f : Item → ℚ) (l : List Item) (hne : l ≠ []) :
    ∃ i ∈ l, maxOver f l = f i := by
  induction l with
  | nil => exact absurd rfl hne
  | cons x t ih =>
    cases t with
    | nil => exact ⟨x, List.mem_cons_self x [], rfl⟩
    | cons y ys =>
      obtain ⟨j, hj, hje⟩ := ih (by simp)
      rcases le_total (maxOver f (y :: ys)) (f x) with hle | hle
      · refine ⟨x, List.mem_cons_self _ _, ?_⟩
        show max (f x) (maxOver f (y :: ys)) = f x
        exact max_eq_left hle
      · refine ⟨j, List.mem_cons_of_mem x hj, ?_⟩
        show max (f x) (maxOver f (y :: ys)) = f j
        rw [max_eq_right hle, hje]

theorem maxOver_perm (f : Item → ℚ) (l l' : List Item) (hp : l.Perm l') :
    maxOver f l = maxOver f l' := by
  cases l with
  | nil =>
    have : l' = [] := hp.symm.eq_nil
    rw [this]
  | cons x t =>
    have hne : (x :: t) ≠ [] := by simp
    have hne' : l' ≠ [] := by
      intro h
      rw [h] at hp
      exact hne hp.eq_nil
    apply le_antisymm
    · obtain ⟨j, hj, hje⟩ := maxOver_attained f (x :: t) hne
      rw [hje]
      exact le_maxOver_of_mem f l' j (hp.subset hj)
    · obtain ⟨j, hj, hje⟩ := maxOver_attained f l' hne'
      rw [hje]
      exact le_maxOver_of_mem f (x :: t) j (hp.symm.subset hj)

theorem maxOver_cons_of_sorted (f : Item → ℚ) (x : Item) (rest : List Item)
    (hs : (x :: rest).Pairwise (descRel f)) :
    maxOver f (x :: rest) = f x := by
  cases rest with
  | nil => rfl
  | cons y ys =>
    obtain ⟨j, hj, hje⟩ := maxOver_attained f (y :: ys) (by simp)
    have hle : maxOver f (y :: ys) ≤ f x := by
      rw [hje]
      exact (List.pairwise_cons.mp hs).1 j hj
    show max (f x) (maxOver f (y :: ys)) = f x
    exact max_eq_left hle

theorem ne_nil_of_perm_ne_nil {l l' : List Item} (hp : l.Perm l')
    (h : l' ≠ []) : l ≠ [] := by
  intro hl
  rw [hl] at hp
  exact h hp.symm.eq_nil

theorem perm_target_ne_nil {l l' : List Item} (hp : l.Perm l') (x : Item)
    (rest : List Item) (hx : l = x :: rest) : l' ≠ [] := by
  intro hb
  rw [hb] at hp
  rw [hp.eq_nil] at hx
  cases hx

theorem not_isEmpty_of_ne_nil {l : List Item} (h : l ≠ []) :
    ¬ (l.isEmpty = true) := fun he => h (List.isEmpty_iff.mp he)

/-! ### Claim theorems -/

/-- **C5** For every state reachable by any sequence of `setHardMarginsMM`,
`setPageAlignment` and `setContentZone` calls from the freshly constructed
store: each of the width order and the height order contains exactly one
entry per stored key (each is a permutation of the keyed collection, whose
keys are pairwise distinct), and iterating the width (resp. height) order
front-to-back yields non-increasing `hardWidthMM` (resp. `hardHeightMM`)
values computed from the current field values of the entries. -/
theorem reachable_order_invariant (ops : List Op) :
    (applyOps initImpl ops).descWidth.Perm (applyOps initImpl ops).byId ∧
    (applyOps initImpl ops).descHeight.Perm (applyOps initImpl ops).byId ∧
    ((applyOps initImpl ops).byId.map Item.pageId).Nodup ∧
    (applyOps initImpl ops).descWidth.Pairwise
      (fun a b => b.hardWidthMM ≤ a.hardWidthMM) ∧
    (applyOps initImpl ops).descHeight.Pairwise
      (fun a b => b.hardHeightMM ≤ a.hardHeightMM) := by
  obtain ⟨h1, h2, h3, h4, h5⟩ := wf_reachable ops
  exact ⟨h2, h3, nodup_keys_of_pairwise_idLt _ h1, h4, h5⟩

/-- **C8** On the freshly constructed (empty) store, `findWidestPage()` and
`findTallestPage()` return the null/default `PageId` sentinel,
`getAggregateHardSizeMM()` returns `(0,0)`, and the what-if overload
`getAggregateHardSizeMM(k, s)` returns `(0,0)` for every key and every
hypothetical size. -/
theorem empty_store_queries (k : PageId) (s : QSizeF) :
    findWidestPage initImpl = nullPageId ∧
    findTallestPage initImpl = nullPageId ∧
    getAggregateHardSizeMM initImpl = ⟨0, 0⟩ ∧
    getAggregateHardSizeMM' initImpl k s = ⟨0, 0⟩ :=
  ⟨rfl, rfl, rfl, rfl⟩

/-- **C1** For every non-empty reachable store, `getAggregateHardSizeMM()`
returns the pair (maximum of `hardWidthMM` over all stored entries,
maximum of `hardHeightMM` over all stored entries), as computed by the
reference brute-force linear scan `maxOver` over the keyed collection; the
two components may come from two different entries. -/
theorem aggregate_eq_linear_scan (ops : List Op)
    (hne : (applyOps initImpl ops).byId ≠ []) :
    getAggregateHardSizeMM (applyOps initImpl ops) =
      ⟨maxOver Item.hardWidthMM (applyOps initImpl ops).byId,
       maxOver Item.hardHeightMM (applyOps initImpl ops).byId⟩ := by
  obtain ⟨h1, h2, h3, h4, h5⟩ := wf_reachable ops
  set c := applyOps initImpl ops with hc
  have hW : c.descWidth ≠ [] := ne_nil_of_perm_ne_nil h2 hne
  have hH : c.descHeight ≠ [] := ne_nil_of_perm_ne_nil h3 hne
  obtain ⟨x, restW, hxw⟩ := List.exists_cons_of_ne_nil hW
  obtain ⟨y, restH, hyh⟩ := List.exists_cons_of_ne_nil hH
  have e1 : maxOver Item.hardWidthMM c.byId = x.hardWidthMM := by
    rw [maxOver_perm _ c.byId c.descWidth h2.symm, hxw]
    exact maxOver_cons_of_sorted _ x restW (hxw ▸ h4)
  have e2 : maxOver Item.hardHeightMM c.byId = y.hardHeightMM := by
    rw [maxOver_perm _ c.byId c.descHeight h3.symm, hyh]
    exact maxOver_cons_of_sorted _ y restH (hyh ▸ h5)
  simp only [getAggregateHardSizeMM]
  rw [if_neg (not_isEmpty_of_ne_nil hne), hxw, hyh, e1, e2]
  rfl

/-- Witness for C1 at the concrete store holding one page with margins
`(2,3,4,5)`. -/
theorem aggregate_eq_linear_scan_witness :
    (applyOps initImpl [Op.margins 1 ⟨2, 3, 4, 5⟩]).byId ≠ [] ∧
    getAggregateHardSizeMM (applyOps initImpl [Op.margins 1 ⟨2, 3, 4, 5⟩]) =
      ⟨maxOver Item.hardWidthMM
        (applyOps initImpl [Op.margins 1 ⟨2, 3, 4, 5⟩]).byId,
       maxOver Item.hardHeightMM
        (applyOps initImpl [Op.margins 1 ⟨2, 3, 4, 5⟩]).byId⟩ :=
  ⟨by decide, aggregate_eq_linear_scan [Op.margins 1 ⟨2, 3, 4, 5⟩] (by decide)⟩

/-- **C3** For every non-empty reachable store, every key `k` (present or
not) and every hypothetical size `s`: if the front entry of the width
order (the entry with maximal `hardWidthMM`) has a key different from `k`,
the width component of the what-if query equals that maximal
`hardWidthMM` (the brute-force maximum over the keyed collection),
however large `s` is; symmetrically for the height component.  The query
is a pure function of the container in this embedding, so it leaves the
store unchanged by construction. -/
theorem whatIf_front_ne_key (ops : List Op) (k : PageId) (s : QSizeF) :
    (∀ x rest, (applyOps initImpl ops).descWidth = x :: rest →
      x.pageId ≠ k →
      (getAggregateHardSizeMM' (applyOps initImpl ops) k s).width =
        maxOver Item.hardWidthMM (applyOps initImpl ops).byId) ∧
    (∀ y rest, (applyOps initImpl ops).descHeight = y :: rest →
      y.pageId ≠ k →
      (getAggregateHardSizeMM' (applyOps initImpl ops) k s).height =
        maxOver Item.hardHeightMM (applyOps initImpl ops).byId) := by
  obtain ⟨h1, h2, h3, h4, h5⟩ := wf_reachable ops
  set c := applyOps initImpl ops with hc
  constructor
  · intro x rest hxw hxk
    have hne : c.byId ≠ [] := perm_target_ne_nil h2 x rest hxw
    have hval : (getAggregateHardSizeMM' c k s).width = x.hardWidthMM := by
      simp only [getAggregateHardSizeMM']
      rw [if_neg (not_isEmpty_of_ne_nil hne)]
      simp [hxw, hxk]
    rw [hval, maxOver_perm _ c.byId c.descWidth h2.symm, hxw,
      maxOver_cons_of_sorted _ x rest (hxw ▸ h4)]
  · intro y rest hyh hyk
    have hne : c.byId ≠ [] := perm_target_ne_nil h3 y rest hyh
    have hval : (getAggregateHardSizeMM' c k s).height = y.hardHeightMM := by
      simp only [getAggregateHardSizeMM']
      rw [if_neg (not_isEmpty_of_ne_nil hne)]
      simp [hyh, hyk]
    rw [hval, maxOver_perm _ c.byId c.descHeight h3.symm, hyh,
      maxOver_cons_of_sorted _ y rest (hyh ▸ h5)]

/-- Witness for C3: one page with key 1, queried with key 2 and a huge
hypothetical size; the answer is still the stored maximum. -/
theorem whatIf_front_ne_key_witness :
    (getAggregateHardSizeMM'
        (applyOps initImpl [Op.margins 1 ⟨1, 1, 1, 1⟩]) 2 ⟨1000, 999⟩).width =
      maxOver Item.hardWidthMM
        (applyOps initImpl [Op.margins 1 ⟨1, 1, 1, 1⟩]).byId :=
  (whatIf_front_ne_key [Op.margins 1 ⟨1, 1, 1, 1⟩] 2 ⟨1000, 999⟩).1
    ⟨1, ⟨1, 1, 1, 1⟩, ⟨0, 0, 0, 0⟩, ⟨0, 0⟩, m_defaultAlignment⟩ []
    (by decide) (by decide)

theorem removeById_cons_self (k : PageId) (x : Item) (rest : List Item)
    (hxk : x.pageId = k) (hnd : ((x :: rest).map Item.pageId).Nodup) :
    removeById k (x :: rest) = rest := by
  rw [List.map_cons, List.nodup_cons] at hnd
  unfold removeById
  rw [List.filter_cons]
  have h1 : (x.pageId != k) = false := by simp [hxk]
  rw [h1]
  simp only [Bool.false_eq_true, if_false]
  apply List.filter_eq_self.mpr
  intro i hi
  have hik : i.pageId ≠ k := by
    intro hik
    have hmem : i.pageId ∈ rest.map Item.pageId :=
      List.mem_map_of_mem Item.pageId hi
    rw [hik, ← hxk] at hmem
    exact hnd.1 hmem
  simp [hik]

/-- **C2 counterexample** The claim computes the hypothetical width as
`s.width` plus the key's stored left and right margins; the code uses
`hard_size_mm.width()` directly.  Concretely: a store holding only page 1
(stored margins left 10, top 5, right 10, bottom 5), queried with key 1
and hypothetical size `(50, 60)`, answers `(50, 60)` and not
`(50 + 10 + 10, 60 + 5 + 5)`. -/
theorem whatIf_margins_not_added :
    (applyOps initImpl
        [Op.zone 1 ⟨0, 0, 0, 0⟩ ⟨100, 100⟩]).descWidth.map Item.pageId =
      [1] ∧
    getHardMarginsMM (applyOps initImpl
        [Op.zone 1 ⟨0, 0, 0, 0⟩ ⟨100, 100⟩]) 1 = ⟨10, 5, 10, 5⟩ ∧
    getAggregateHardSizeMM' (applyOps initImpl
        [Op.zone 1 ⟨0, 0, 0, 0⟩ ⟨100, 100⟩]) 1 ⟨50, 60⟩ = ⟨50, 60⟩ ∧
    ((50 : ℚ) ≠ 50 + 10 + 10) ∧ ((60 : ℚ) ≠ 60 + 5 + 5) := by
  norm_num [applyOps, step, setContentZone, findById, Container.insertItem,
    insertById, insertDescUpper, initImpl, List.find?, getAggregateHardSizeMM',
    getHardMarginsMM, frontVal, Item.hardWidthMM, Item.hardHeightMM,
    m_zeroSize, m_defaultHardMarginsMM, m_defaultAlignment]

/-- **C2 amended** For every non-empty reachable store, key `k` and
hypothetical size `s`: if the entry at the front of the width order has
key `k`, the width component of the what-if query is `s.width` itself
when that entry is the only one in the store, and otherwise
`max(s.width, runner-up's hardWidthMM)` where the runner-up maximum is the
brute-force maximum of `hardWidthMM` over all entries other than `k`; the
hypothetical size is used directly as the hard size (the key's stored
margins are not added).  Symmetrically for the height component along the
height order. -/
theorem whatIf_front_is_key (ops : List Op) (k : PageId) (s : QSizeF) :
    (∀ x rest, (applyOps initImpl ops).descWidth = x :: rest →
      x.pageId = k →
      ((rest = [] →
         (getAggregateHardSizeMM' (applyOps initImpl ops) k s).width =
           s.width) ∧
       (rest ≠ [] →
         (getAggregateHardSizeMM' (applyOps initImpl ops) k s).width =
           max s.width (maxOver Item.hardWidthMM
             (removeById k (applyOps initImpl ops).byId))))) ∧
    (∀ y rest, (applyOps initImpl ops).descHeight = y :: rest →
      y.pageId = k →
      ((rest = [] →
         (getAggregateHardSizeMM' (applyOps initImpl ops) k s).height =
           s.height) ∧
       (rest ≠ [] →
         (getAggregateHardSizeMM' (applyOps initImpl ops) k s).height =
           max s.height (maxOver Item.hardHeightMM
             (removeById k (applyOps initImpl ops).byId))))) := by
  obtain ⟨h1, h2, h3, h4, h5⟩ := wf_reachable ops
  set c := applyOps initImpl ops with hc
  have hndI := nodup_keys_of_pairwise_idLt _ h1
  constructor
  · intro x rest hxw hxk
    have hne : c.byId ≠ [] := perm_target_ne_nil h2 x rest hxw
    have hndW : (c.descWidth.map Item.pageId).Nodup :=
      ((h2.map Item.pageId).symm).nodup hndI
    constructor
    · intro hrest
      subst hrest
      simp only [getAggregateHardSizeMM']
      rw [if_neg (not_isEmpty_of_ne_nil hne)]
      simp [hxw, hxk]
    · intro hrest
      obtain ⟨y, ys, rfl⟩ := List.exists_cons_of_ne_nil hrest
      have hval : (getAggregateHardSizeMM' c k s).width =
          max s.width y.hardWidthMM := by
        simp only [getAggregateHardSizeMM']
        rw [if_neg (not_isEmpty_of_ne_nil hne)]
        simp [hxw, hxk]
      have hrem : removeById k c.descWidth = y :: ys := by
        rw [hxw]
        exact removeById_cons_self k x (y :: ys) hxk (by rw [← hxw]; exact hndW)
      have hperm : (removeById k c.byId).Perm (removeById k c.descWidth) :=
        List.Perm.filter _ h2.symm
      rw [hval,
        maxOver_perm Item.hardWidthMM (removeById k c.byId)
          (removeById k c.descWidth) hperm,
        hrem,
        maxOver_cons_of_sorted _ y ys (List.pairwise_cons.mp (hxw ▸ h4)).2]
  · intro y rest hyh hyk
    have hne : c.byId ≠ [] := perm_target_ne_nil h3 y rest hyh
    have hndH : (c.descHeight.map Item.pageId).Nodup :=
      ((h3.map Item.pageId).symm).nodup hndI
    constructor
    · intro hrest
      subst hrest
      simp only [getAggregateHardSizeMM']
      rw [if_neg (not_isEmpty_of_ne_nil hne)]
      simp [hyh, hyk]
    · intro hrest
      obtain ⟨z, zs, rfl⟩ := List.exists_cons_of_ne_nil hrest
      have hval : (getAggregateHardSizeMM' c k s).height =
          max s.height z.hardHeightMM := by
        simp only [getAggregateHardSizeMM']
        rw [if_neg (not_isEmpty_of_ne_nil hne)]
        simp [hyh, hyk]
      have hrem : removeById k c.descHeight = z :: zs := by
        rw [hyh]
        exact removeById_cons_self k y (z :: zs) hyk (by rw [← hyh]; exact hndH)
      have hperm : (removeById k c.byId).Perm (removeById k c.descHeight) :=
        List.Perm.filter _ h3.symm
      rw [hval,
        maxOver_perm Item.hardHeightMM (removeById k c.byId)
          (removeById k c.descHeight) hperm,
        hrem,
        maxOver_cons_of_sorted _ z zs (List.pairwise_cons.mp (hyh ▸ h5)).2]

/-- Witness for the amended C2: two pages, the wider one queried with a
small hypothetical size; the answer's width is the maximum of the
hypothetical width and the runner-up maximum. -/
theorem whatIf_front_is_key_witness :
    (getAggregateHardSizeMM'
        (applyOps initImpl [Op.zone 1 ⟨0, 0, 0, 0⟩ ⟨100, 100⟩,
          Op.zone 2 ⟨0, 0, 0, 0⟩ ⟨50, 50⟩]) 1 ⟨30, 40⟩).width =
      max (30 : ℚ) (maxOver Item.hardWidthMM
        (removeById 1 (applyOps initImpl [Op.zone 1 ⟨0, 0, 0, 0⟩ ⟨100, 100⟩,
          Op.zone 2 ⟨0, 0, 0, 0⟩ ⟨50, 50⟩]).byId)) :=
  ((whatIf_front_is_key
      [Op.zone 1 ⟨0, 0, 0, 0⟩ ⟨100, 100⟩, Op.zone 2 ⟨0, 0, 0, 0⟩ ⟨50, 50⟩]
      1 ⟨30, 40⟩).1
    ⟨1, m_defaultHardMarginsMM, ⟨0, 0, 0, 0⟩, ⟨100, 100⟩, m_defaultAlignment⟩
    [⟨2, m_defaultHardMarginsMM, ⟨0, 0, 0, 0⟩, ⟨50, 50⟩, m_defaultAlignment⟩]
    (by norm_num [applyOps, step, setContentZone, findById,
      Container.insertItem, insertById, insertDescUpper, initImpl,
      List.find?_cons_of_neg, List.find?_cons_of_pos, m_zeroSize,
      m_defaultHardMarginsMM, m_defaultAlignment, Item.hardWidthMM,
      Item.hardHeightMM]) (by decide)).2 (by decide)

/-- **C9 counterexample** Inserting page 2 and then page 1 with identical
margins (hence equal `hardWidthMM` and equal `hardHeightMM`) yields width
and height orders listing `[2, 1]` — insertion order, not ascending
`PageId` order (the keyed storage order is `[1, 2]`) — and
`findWidestPage()` returns 2, not the tied entry with the smallest
`PageId`. -/
theorem tie_not_broken_by_smallest_key :
    (applyOps initImpl [Op.margins 2 ⟨10, 5, 10, 5⟩,
        Op.margins 1 ⟨10, 5, 10, 5⟩]).byId.map Item.pageId = [1, 2] ∧
    (∀ i ∈ (applyOps initImpl [Op.margins 2 ⟨10, 5, 10, 5⟩,
        Op.margins 1 ⟨10, 5, 10, 5⟩]).byId,
      i.hardWidthMM = 20 ∧ i.hardHeightMM = 10) ∧
    (applyOps initImpl [Op.margins 2 ⟨10, 5, 10, 5⟩,
        Op.margins 1 ⟨10, 5, 10, 5⟩]).descWidth.map Item.pageId = [2, 1] ∧
    (applyOps initImpl [Op.margins 2 ⟨10, 5, 10, 5⟩,
        Op.margins 1 ⟨10, 5, 10, 5⟩]).descHeight.map Item.pageId = [2, 1] ∧
    findWidestPage (applyOps initImpl [Op.margins 2 ⟨10, 5, 10, 5⟩,
        Op.margins 1 ⟨10, 5, 10, 5⟩]) = 2 ∧
    findTallestPage (applyOps initImpl [Op.margins 2 ⟨10, 5, 10, 5⟩,
        Op.margins 1 ⟨10, 5, 10, 5⟩]) = 2 ∧
    (2 : PageId) ≠ 1 := by
  norm_num [applyOps, step, setHardMarginsMM, findById, Container.insertItem,
    insertById, insertDescUpper, initImpl, List.find?_cons_of_neg,
    List.find?_cons_of_pos, findWidestPage, findTallestPage, List.isEmpty,
    Item.hardWidthMM, Item.hardHeightMM, m_zeroSize, m_defaultHardMarginsMM,
    m_defaultAlignment]

/-- **C9 amended** For every reachable state, the front entry of the width
(resp. height) order is a stored entry attaining the maximal `hardWidthMM`
(resp. `hardHeightMM`), and `findWidestPage()` (resp. `findTallestPage()`)
returns its key.  When several entries tie for the maximum, which tied
entry sits at the front is implementation-defined and history-dependent,
not determined by the stored entries: it is neither ascending `PageId`
order (the same final set of entries yields winner 1 under one insertion
history and winner 2 under the other) nor insertion order (a `modify`
that lowers the unique maximum into a tie leaves the later-inserted entry
in front of an equal earlier one). -/
theorem tie_break_history_dependent :
    (∀ ops x rest, (applyOps initImpl ops).descWidth = x :: rest →
      findWidestPage (applyOps initImpl ops) = x.pageId ∧
      x ∈ (applyOps initImpl ops).byId ∧
      ∀ i ∈ (applyOps initImpl ops).byId,
        i.hardWidthMM ≤ x.hardWidthMM) ∧
    (∀ ops y rest, (applyOps initImpl ops).descHeight = y :: rest →
      findTallestPage (applyOps initImpl ops) = y.pageId ∧
      y ∈ (applyOps initImpl ops).byId ∧
      ∀ i ∈ (applyOps initImpl ops).byId,
        i.hardHeightMM ≤ y.hardHeightMM) ∧
    ((applyOps initImpl [Op.margins 1 ⟨10, 5, 10, 5⟩,
        Op.margins 2 ⟨10, 5, 10, 5⟩]).byId =
      (applyOps initImpl [Op.margins 2 ⟨10, 5, 10, 5⟩,
        Op.margins 1 ⟨10, 5, 10, 5⟩]).byId ∧
     findWidestPage (applyOps initImpl [Op.margins 1 ⟨10, 5, 10, 5⟩,
        Op.margins 2 ⟨10, 5, 10, 5⟩]) = 1 ∧
     findWidestPage (applyOps initImpl [Op.margins 2 ⟨10, 5, 10, 5⟩,
        Op.margins 1 ⟨10, 5, 10, 5⟩]) = 2) ∧
    ((applyOps initImpl [Op.margins 1 ⟨4, 0, 4, 0⟩, Op.margins 2 ⟨5, 0, 5, 0⟩,
        Op.margins 2 ⟨4, 0, 4, 0⟩]).descWidth.map Item.pageId = [2, 1] ∧
     (∀ i ∈ (applyOps initImpl [Op.margins 1 ⟨4, 0, 4, 0⟩,
        Op.margins 2 ⟨5, 0, 5, 0⟩, Op.margins 2 ⟨4, 0, 4, 0⟩]).byId,
       i.hardWidthMM = 8) ∧
     findWidestPage (applyOps initImpl [Op.margins 1 ⟨4, 0, 4, 0⟩,
        Op.margins 2 ⟨5, 0, 5, 0⟩, Op.margins 2 ⟨4, 0, 4, 0⟩]) = 2) := by
  refine ⟨?_, ?_, ?_, ?_⟩
  · intro ops x rest hxw
    obtain ⟨h1, h2, h3, h4, h5⟩ := wf_reachable ops
    have hne : (applyOps initImpl ops).byId ≠ [] :=
      perm_target_ne_nil h2 x rest hxw
    refine ⟨?_, h2.subset (by rw [hxw]; exact List.mem_cons_self x rest), ?_⟩
    · simp only [findWidestPage]
      rw [if_neg (not_isEmpty_of_ne_nil hne), hxw]
    · intro i hi
      have hiw : i ∈ x :: rest := by
        rw [← hxw]
        exact h2.symm.subset hi
      rcases List.mem_cons.mp hiw with rfl | hmem
      · exact le_refl _
      · exact (List.pairwise_cons.mp (hxw ▸ h4)).1 i hmem
  · intro ops y rest hyh
    obtain ⟨h1, h2, h3, h4, h5⟩ := wf_reachable ops
    have hne : (applyOps initImpl ops).byId ≠ [] :=
      perm_target_ne_nil h3 y rest hyh
    refine ⟨?_, h3.subset (by rw [hyh]; exact List.mem_cons_self y rest), ?_⟩
    · simp only [findTallestPage]
      rw [if_neg (not_isEmpty_of_ne_nil hne), hyh]
    · intro i hi
      have hih : i ∈ y :: rest := by
        rw [← hyh]
        exact h3.symm.subset hi
      rcases List.mem_cons.mp hih with rfl | hmem
      · exact le_refl _
      · exact (List.pairwise_cons.mp (hyh ▸ h5)).1 i hmem
  · norm_num [applyOps, step, setHardMarginsMM, findById, Container.insertItem,
      insertById, insertDescUpper, initImpl, List.find?_cons_of_neg,
      List.find?_cons_of_pos, findWidestPage, List.isEmpty,
      Item.hardWidthMM, Item.hardHeightMM, m_zeroSize, m_defaultHardMarginsMM,
      m_defaultAlignment]
  · norm_num [applyOps, step, setHardMarginsMM, findById, Container.insertItem,
      Container.modifyItem, insertById, insertDescUpper, updItem, removeById,
      repositionDesc, initImpl, List.find?_cons_of_neg, List.find?_cons_of_pos,
      findWidestPage, List.isEmpty, List.chain'_cons, List.chain'_singleton,
      Item.hardWidthMM, Item.hardHeightMM, m_zeroSize, m_defaultHardMarginsMM,
      m_defaultAlignment]

/-- Witness for the amended C9: the general front-attains-the-maximum part
instantiated on a concrete one-page store. -/
theorem tie_break_history_dependent_witness :
    findWidestPage (applyOps initImpl [Op.margins 3 ⟨1, 1, 1, 1⟩]) =
      (Item.mk 3 ⟨1, 1, 1, 1⟩ ⟨0, 0, 0, 0⟩ ⟨0, 0⟩ m_defaultAlignment).pageId ∧
    Item.mk 3 ⟨1, 1, 1, 1⟩ ⟨0, 0, 0, 0⟩ ⟨0, 0⟩ m_defaultAlignment ∈
      (applyOps initImpl [Op.margins 3 ⟨1, 1, 1, 1⟩]).byId ∧
    ∀ i ∈ (applyOps initImpl [Op.margins 3 ⟨1, 1, 1, 1⟩]).byId,
      i.hardWidthMM ≤
        (Item.mk 3 ⟨1, 1, 1, 1⟩ ⟨0, 0, 0, 0⟩ ⟨0, 0⟩
          m_defaultAlignment).hardWidthMM :=
  tie_break_history_dependent.1 [Op.margins 3 ⟨1, 1, 1, 1⟩]
    (Item.mk 3 ⟨1, 1, 1, 1⟩ ⟨0, 0, 0, 0⟩ ⟨0, 0⟩ m_defaultAlignment) []
    (by decide)

theorem find?_insertById_of_neg (p : Item → Bool) (x : Item) (l : List Item)
    (hx : p x = false) : (insertById x l).find? p = l.find? p := by
  induction l with
  | nil =>
    show List.find? p [x] = List.find? p []
    rw [List.find?_cons_of_neg _ (by simp [hx])]
  | cons y ys ih =>
    simp only [insertById]
    split
    · by_cases hy : p y = true
      · rw [List.find?_cons_of_pos _ hy, List.find?_cons_of_pos _ hy]
      · rw [List.find?_cons_of_neg _ hy, List.find?_cons_of_neg _ hy, ih]
    · rw [List.find?_cons_of_neg _ (by simp [hx])]

theorem find?_insertById_of_pos (p : Item → Bool) (x : Item) (l : List Item)
    (hx : p x = true) (hl : ∀ y ∈ l, p y = false) :
    (insertById x l).find? p = some x := by
  induction l with
  | nil => exact List.find?_cons_of_pos _ hx
  | cons y ys ih =>
    simp only [insertById]
    split
    · rw [List.find?_cons_of_neg _ (by simp [hl y (List.mem_cons_self y ys)])]
      exact ih (fun z hz => hl z (List.mem_cons_of_mem y hz))
    · exact List.find?_cons_of_pos _ hx

theorem findById_insertItem_of_ne (c : Container) (x : Item) (k : PageId)
    (hx : x.pageId ≠ k) : findById (c.insertItem x) k = findById c k :=
  find?_insertById_of_neg _ x c.byId (by simp [hx])

theorem findById_modifyItem_of_ne (c : Container) (k' k : PageId)
    (g : Item → Item) (hg : PreservesId g) (hk : k' ≠ k) :
    findById (c.modifyItem k' g) k = findById c k := by
  unfold findById Container.modifyItem updItem
  rw [find?_map_pred _ _ (fun i => by rw [updItem_pageId k' g hg i]) c.byId]
  cases hfj : c.byId.find? (fun i => i.pageId == k) with
  | none => rfl
  | some i =>
    have hik : i.pageId = k := by simpa using List.find?_some hfj
    show some (if i.pageId = k' then g i else i) = some i
    rw [if_neg (by rw [hik]; exact Ne.symm hk)]

theorem findById_step_of_ne (c : Container) (op : Op) (k : PageId)
    (hk : op.key ≠ k) : findById (step c op) k = findById c k := by
  cases op with
  | margins k' m =>
    have hk' : k' ≠ k := hk
    simp only [step, setHardMarginsMM]
    cases hfind : findById c k' with
    | none => exact findById_insertItem_of_ne c _ k hk'
    | some j => exact findById_modifyItem_of_ne c k' k _ (fun i => rfl) hk'
  | align k' a =>
    have hk' : k' ≠ k := hk
    simp only [step, setPageAlignment]
    cases hfind : findById c k' with
    | none => exact findById_insertItem_of_ne c _ k hk'
    | some j => exact findById_modifyItem_of_ne c k' k _ (fun i => rfl) hk'
  | zone k' r s =>
    have hk' : k' ≠ k := hk
    simp only [step, setContentZone]
    cases hfind : findById c k' with
    | none => exact findById_insertItem_of_ne c _ k hk'
    | some j => exact findById_modifyItem_of_ne c k' k _ (fun i => rfl) hk'

theorem findById_applyOps_none (ops : List Op) (c : Container) (k : PageId)
    (h : ∀ op ∈ ops, op.key ≠ k) (hc : findById c k = none) :
    findById (applyOps c ops) k = none := by
  induction ops generalizing c with
  | nil => exact hc
  | cons op t ih =>
    exact ih (step c op) (fun o ho => h o (List.mem_cons_of_mem op ho))
      (by rw [findById_step_of_ne c op k (h op (List.mem_cons_self op t)), hc])

/-- **C7** For every key on which no set operation has ever been performed,
`getHardMarginsMM` returns the default margins (left 10, right 10, top 5,
bottom 5 mm), `getPageAlignment` returns the default centered alignment,
and `getPageParams` returns the empty optional.  All three are pure
functions of the container in this embedding: none raises an error or
modifies the store, by construction. -/
theorem defaults_for_unwritten_key (ops : List Op) (k : PageId)
    (h : ∀ op ∈ ops, op.key ≠ k) :
    getHardMarginsMM (applyOps initImpl ops) k = m_defaultHardMarginsMM ∧
    getPageAlignment (applyOps initImpl ops) k = m_defaultAlignment ∧
    getPageParams (applyOps initImpl ops) k = none := by
  have hnone : findById (applyOps initImpl ops) k = none :=
    findById_applyOps_none ops initImpl k h rfl
  exact ⟨by simp [getHardMarginsMM, hnone], by simp [getPageAlignment, hnone],
    by simp [getPageParams, hnone]⟩

/-- Witness for C7: a store that has seen writes to keys 2 and 3 still
answers all defaults for key 1. -/
theorem defaults_for_unwritten_key_witness :
    getHardMarginsMM (applyOps initImpl [Op.margins 2 ⟨1, 1, 1, 1⟩,
      Op.align 3 ⟨AlignVert.TOP, AlignHor.LEFT⟩]) 1 = m_defaultHardMarginsMM ∧
    getPageAlignment (applyOps initImpl [Op.margins 2 ⟨1, 1, 1, 1⟩,
      Op.align 3 ⟨AlignVert.TOP, AlignHor.LEFT⟩]) 1 = m_defaultAlignment ∧
    getPageParams (applyOps initImpl [Op.margins 2 ⟨1, 1, 1, 1⟩,
      Op.align 3 ⟨AlignVert.TOP, AlignHor.LEFT⟩]) 1 = none :=
  defaults_for_unwritten_key
    [Op.margins 2 ⟨1, 1, 1, 1⟩, Op.align 3 ⟨AlignVert.TOP, AlignHor.LEFT⟩] 1
    (by decide)

/-- **C4 counterexample** `ModifyContentSize` assigns only `contentSizeMM`:
calling `setContentZone` twice on the same key stores the second content
size but keeps the first content rectangle, refuting "the entry stored
under k has contentRect equal to r" for pre-existing keys. -/
theorem setContentZone_keeps_old_rect :
    getPageParams (setContentZone (setContentZone initImpl 1
        ⟨1, 2, 3, 4⟩ ⟨10, 10⟩) 1 ⟨5, 6, 7, 8⟩ ⟨20, 20⟩) 1 =
      some ⟨m_defaultHardMarginsMM, ⟨1, 2, 3, 4⟩, ⟨20, 20⟩,
        m_defaultAlignment⟩ ∧
    (QRectF.mk 1 2 3 4 ≠ QRectF.mk 5 6 7 8) := by
  norm_num [setContentZone, findById, Container.insertItem,
    Container.modifyItem, insertById, insertDescUpper, updItem, removeById,
    repositionDesc, initImpl, List.find?_cons_of_neg, List.find?_cons_of_pos,
    getPageParams, Item.hardWidthMM, Item.hardHeightMM, m_zeroSize,
    m_defaultHardMarginsMM, m_defaultAlignment, List.chain'_cons,
    List.chain'_singleton]

/-- **C4 amended** After `setContentZone(k, r, s)`, the entry stored under
`k` has `contentSize = s` in every case; when `k` was absent a new entry
is created with `contentRect = r`, default margins and default alignment,
but when `k` was already present the stored `contentRect` (and margins and
alignment) are left unchanged — the supplied rectangle is dropped because
`ModifyContentSize` assigns only the content size. -/
theorem setContentZone_effect (c : Container) (k : PageId) (r : QRectF)
    (s : QSizeF) :
    (findById c k = none →
      getPageParams (setContentZone c k r s) k =
        some ⟨m_defaultHardMarginsMM, r, s, m_defaultAlignment⟩) ∧
    (∀ i, findById c k = some i →
      getPageParams (setContentZone c k r s) k =
        some ⟨i.hardMarginsMM, i.contentRect, s, i.alignment⟩) := by
  constructor
  · intro hnone
    simp only [setContentZone, hnone, Container.insertItem]
    unfold getPageParams findById
    rw [find?_insertById_of_pos _ _ _ (by simp) (fun y hy => by
      have hyk := absent_of_findById_none c k hnone y hy
      simp [hyk])]
    rfl
  · intro i hsome
    simp only [setContentZone, hsome]
    unfold getPageParams findById Container.modifyItem updItem
    rw [find?_map_pred _ _ (fun x => by
      by_cases hx : x.pageId = k <;> simp [hx]) c.byId]
    rw [show c.byId.find? (fun i => i.pageId == k) = some i from hsome]
    have hik : i.pageId = k := by simpa using List.find?_some hsome
    simp [hik]

/-- Witness for the amended C4, exercising both the absent and the present
branch on concrete stores. -/
theorem setContentZone_effect_witness :
    getPageParams (setContentZone initImpl 1 ⟨1, 2, 3, 4⟩ ⟨10, 10⟩) 1 =
      some ⟨m_defaultHardMarginsMM, ⟨1, 2, 3, 4⟩, ⟨10, 10⟩,
        m_defaultAlignment⟩ :=
  (setContentZone_effect initImpl 1 ⟨1, 2, 3, 4⟩ ⟨10, 10⟩).1 rfl

theorem chain'_of_pairwise_descRel (f : Item → ℚ) (l : List Item)
    (h : l.Pairwise (descRel f)) :
    List.Chain' (fun a b => f b ≤ f a) l := by
  have htrans : IsTrans Item (descRel f) :=
    ⟨fun a b c hab hbc => le_trans hbc hab⟩
  exact (@List.chain'_iff_pairwise _ _ htrans _).mpr h

theorem set_margins_id (i : Item) (m : Margins) (h : i.hardMarginsMM = m) :
    ({ i with hardMarginsMM := m } : Item) = i := by
  subst h
  rfl

theorem margins_eq_after_set (c : Container) (k : PageId) (m : Margins) :
    ∀ i ∈ (setHardMarginsMM c k m).byId, i.pageId = k →
      i.hardMarginsMM = m := by
  simp only [setHardMarginsMM, Container.insertItem, Container.modifyItem,
    updItem]
  cases hfind : findById c k with
  | none =>
    intro i hi hik
    rcases List.mem_cons.mp ((perm_insertById _ c.byId).mem_iff.mp hi) with
      rfl | hmem
    · rfl
    · exact absurd hik (absent_of_findById_none c k hfind i hmem)
  | some j =>
    intro i hi hik
    obtain ⟨i0, hi0, rfl⟩ := List.mem_map.mp hi
    by_cases h0 : i0.pageId = k
    · simp [h0]
    · rw [if_neg h0] at hik
      exact absurd hik h0

theorem mem_key_after_set (c : Container) (k : PageId) (m : Margins) :
    ∃ i ∈ (setHardMarginsMM c k m).byId, i.pageId = k := by
  simp only [setHardMarginsMM, Container.insertItem, Container.modifyItem,
    updItem]
  cases hfind : findById c k with
  | none =>
    refine ⟨⟨k, m, ⟨0, 0, 0, 0⟩, m_zeroSize, m_defaultAlignment⟩, ?_, rfl⟩
    exact (perm_insertById _ c.byId).mem_iff.mpr (List.mem_cons_self _ _)
  | some j =>
    have hj : j ∈ c.byId := List.mem_of_find?_eq_some hfind
    have hjk : j.pageId = k := by simpa using List.find?_some hfind
    refine ⟨if j.pageId = k then { j with hardMarginsMM := m } else j,
      List.mem_map_of_mem _ hj, ?_⟩
    rw [if_pos hjk]
    exact hjk

/-- **C6** Calling `setHardMarginsMM(k, m)` twice in succession from any
reachable store leaves the store in exactly the same state (hence
observably identical under every query operation) as calling it once:
the second call takes the modify path, the field update is the identity
on the stored entry, and both descending orders keep every element in
place because they are already ordered. -/
theorem setHardMarginsMM_idempotent (ops : List Op) (k : PageId)
    (m : Margins) :
    setHardMarginsMM (setHardMarginsMM (applyOps initImpl ops) k m) k m =
      setHardMarginsMM (applyOps initImpl ops) k m := by
  have hwf : WF (applyOps initImpl ops) := wf_reachable ops
  set c := applyOps initImpl ops with hc
  have hwf1 : WF (setHardMarginsMM c k m) := wf_step c (Op.margins k m) hwf
  set c1 := setHardMarginsMM c k m with hc1
  obtain ⟨w1, w2, w3, w4, w5⟩ := hwf1
  have hmarI : ∀ i ∈ c1.byId, i.pageId = k → i.hardMarginsMM = m :=
    margins_eq_after_set c k m
  have hmarW : ∀ i ∈ c1.descWidth, i.pageId = k → i.hardMarginsMM = m :=
    fun i hi => hmarI i (w2.subset hi)
  have hmarH : ∀ i ∈ c1.descHeight, i.pageId = k → i.hardMarginsMM = m :=
    fun i hi => hmarI i (w3.subset hi)
  obtain ⟨j, hj, hjk⟩ := mem_key_after_set c k m
  cases hfj : findById c1 k with
  | none => exact absurd hjk (absent_of_findById_none c1 k hfj j hj)
  | some j0 =>
    simp only [setHardMarginsMM, hfj, Container.modifyItem]
    have hby : updItem k (fun i => { i with hardMarginsMM := m }) c1.byId =
        c1.byId :=
      updItem_eq_self _ _ _ (fun i hi hik => set_margins_id i m (hmarI i hi hik))
    have hupW : updItem k (fun i => { i with hardMarginsMM := m })
        c1.descWidth = c1.descWidth :=
      updItem_eq_self _ _ _ (fun i hi hik => set_margins_id i m (hmarW i hi hik))
    have hupH : updItem k (fun i => { i with hardMarginsMM := m })
        c1.descHeight = c1.descHeight :=
      updItem_eq_self _ _ _ (fun i hi hik => set_margins_id i m (hmarH i hi hik))
    have hrw : repositionDesc Item.hardWidthMM k
        (fun i => { i with hardMarginsMM := m }) c1.descWidth =
        c1.descWidth := by
      simp only [repositionDesc]
      rw [hupW, if_pos]
      exact chain'_of_pairwise_descRel Item.hardWidthMM c1.descWidth w4
    have hrh : repositionDesc Item.hardHeightMM k
        (fun i => { i with hardMarginsMM := m }) c1.descHeight =
        c1.descHeight := by
      simp only [repositionDesc]
      rw [hupH, if_pos]
      exact chain'_of_pairwise_descRel Item.hardHeightMM c1.descHeight w5
    rw [hby, hrw, hrh]

end PageLayout
